import Mathlib

/-!
Verification of the RAG pipeline core of this repository
(text normalization, sentence-aware chunking, embedding dimension
reconciliation, structured-output parsing, quiz post-processing,
and the generation provider chains).

Python strings are modelled as `List Char` (with `String` wrappers at the
outer interfaces), sizes as `Nat`, floating point vectors as lists of real
numbers, JSON values as the inductive `JVal`, Python dicts as association
lists with unique keys, and the external AI providers / `json.loads` as
oracle parameters (the code under verification only inspects their results).
-/

namespace SaiV

/-! ### Python string primitives (ASCII model of `\s`, `strip`, `upper`, `lower`) -/

/-- ASCII model of Python regex `\s` / `str.strip` whitespace. -/
def isPySpace (c : Char) : Bool :=
  c = ' ' || c = '\t' || c = '\n' || c = '\r' || c = '\x0b' || c = '\x0c'

/-- Python `str.lstrip()`. -/
def lstripL (l : List Char) : List Char := l.dropWhile isPySpace

/-- Python `str.strip()`: drop leading whitespace, then drop trailing
whitespace (implemented by reversing twice). -/
def pstripL (l : List Char) : List Char :=
  ((lstripL l).reverse.dropWhile isPySpace).reverse

/-- Python `str.strip()` on `String`. -/
def pstripS (s : String) : String := String.mk (pstripL s.data)

/-- Python `str.upper()` (ASCII). -/
def upperS (s : String) : String := String.mk (s.data.map Char.toUpper)

/-- Python `str.lower()` (ASCII). -/
def lowerS (s : String) : String := String.mk (s.data.map Char.toLower)

/-! ### `clean_text` (src/backend/app/utils/chunking.py lines 7-15) -/

/-- Scanner for `re.sub(r"\s+", " ", text)`: `inRun` records whether the
previous character was whitespace, so each maximal whitespace run emits a
single space. -/
def collapseWSAux : List Char → Bool → List Char
  | [], _ => []
  | c :: rest, inRun =>
    if isPySpace c then
      if inRun then collapseWSAux rest true
      else ' ' :: collapseWSAux rest true
    else c :: collapseWSAux rest false

/-- Model of `re.sub(r"\s+", " ", text)`: every maximal run of whitespace is
replaced by a single space. -/
def collapseWS (l : List Char) : List Char := collapseWSAux l false

/-- Scanner for `re.sub(r"\n\x7b3,\x7d", "\n\n", text)`: `n` counts the
newlines already emitted for the current newline run, so a maximal run of
`k` newlines emits `min k 2` newlines — runs of three or more collapse to
exactly two, shorter runs are untouched. -/
def capNewlinesAux : List Char → Nat → List Char
  | [], _ => []
  | c :: rest, n =>
    if c = '\n' then
      if n < 2 then '\n' :: capNewlinesAux rest (n + 1)
      else capNewlinesAux rest n
    else c :: capNewlinesAux rest 0

/-- Model of `re.sub(r"\n\x7b3,\x7d", "\n\n", text)`: every maximal run of
three or more newlines is replaced by exactly two newlines. -/
def capNewlines (l : List Char) : List Char := capNewlinesAux l 0

/-- `clean_text` from `chunking.py`: whitespace collapse, then newline
capping, then strip.  (The collapse pass runs first, exactly as in the
source.) -/
def cleanTextL (t : List Char) : List Char :=
  match t with
  | [] => []
  | _ => pstripL (capNewlines (collapseWS t))

/-- `clean_text` on `String`. -/
def clean_text (s : String) : String := String.mk (cleanTextL s.data)

/-! ### Sentence splitting (`re.split(r"(?<=[.!?])\s+|\n+", text)`) -/

/-- Is this a sentence-ending punctuation character (`[.!?]`)? -/
def isSentEnd (c : Char) : Bool := c = '.' || c = '!' || c = '?'

/-- Scanner for `re.split(r"(?<=[.!?])\s+|\n+", text)`: a split happens at a
maximal whitespace run preceded by `.`/`!`/`?` (first alternative), or at a
maximal newline run (second alternative).  `acc` is the current piece
(reversed), `prev` the previous character (a space initially: position 0
has no lookbehind), and `mode` is 0 inside a piece, 1 while consuming the
rest of a matched `\s+` run, 2 while consuming the rest of a matched `\n+`
run. -/
def splitSentAux : List Char → List Char → Char → Nat → List (List Char)
  | [], acc, _, _ => [acc.reverse]
  | c :: rest, acc, prev, mode =>
    if mode = 1 then
      if isPySpace c then splitSentAux rest acc ' ' 1
      else splitSentAux rest (c :: acc) c 0
    else if mode = 2 then
      if c = '\n' then splitSentAux rest acc '\n' 2
      else splitSentAux rest (c :: acc) c 0
    else if isSentEnd prev && isPySpace c then
      acc.reverse :: splitSentAux rest [] ' ' 1
    else if c = '\n' then
      acc.reverse :: splitSentAux rest [] '\n' 2
    else
      splitSentAux rest (c :: acc) c 0

/-- `sentences = [s.strip() for s in re.split(...) if s.strip()]`
(chunking.py lines 33-34). -/
def sentencesL (t : List Char) : List (List Char) :=
  ((splitSentAux t [] ' ' 0).map pstripL).filter (fun s => !s.isEmpty)

/-! ### `chunk_text` (chunking.py lines 18-59) -/

/-- `" ".join(current_chunk)`. -/
def joinSp : List (List Char) → List Char
  | [] => []
  | [s] => s
  | s :: rest => s ++ ' ' :: joinSp rest

/-- The backward overlap walk of chunking.py lines 45-50: accumulate the
most recent sentences of the closed chunk while the accumulated text stays
within the `overlap` budget.  `rl` is the reversed sentence list. -/
def seedOfAux (ov : Nat) : List (List Char) → List Char → List Char
  | [], acc => acc
  | s :: rl, acc =>
    if acc.length + s.length + 1 ≤ ov then
      seedOfAux ov rl (if acc.isEmpty then s else s ++ ' ' :: acc)
    else acc

/-- The overlap seed text computed from the just-closed chunk. -/
def seedOf (cur : List (List Char)) (ov : Nat) : List Char :=
  seedOfAux ov cur.reverse []

/-- Main accumulation loop of `chunk_text` (chunking.py lines 39-57),
instrumented to return the sentence list of each emitted chunk (the chunk
strings are recovered with `joinSp`, see `chunkAux_eq_map`). -/
def chunkAuxL (cs ov : Nat) : List (List Char) → List (List Char) → Nat → List (List (List Char))
  | [], cur, _ => match cur with | [] => [] | _ => [cur]
  | s :: rest, cur, clen =>
    let slen := s.length + 1
    if cs < clen + slen ∧ cur ≠ [] then
      let ot := seedOf cur ov
      let cur2 : List (List Char) := match ot with | [] => [] | _ => [pstripL ot]
      cur :: chunkAuxL cs ov rest (cur2 ++ [s]) (ot.length + slen)
    else
      chunkAuxL cs ov rest (cur ++ [s]) (clen + slen)

/-- Main accumulation loop of `chunk_text`, emitting the joined chunk
strings exactly as the source does. -/
def chunkAux (cs ov : Nat) : List (List Char) → List (List Char) → Nat → List (List Char)
  | [], cur, _ => match cur with | [] => [] | _ => [joinSp cur]
  | s :: rest, cur, clen =>
    let slen := s.length + 1
    if cs < clen + slen ∧ cur ≠ [] then
      let ot := seedOf cur ov
      let cur2 : List (List Char) := match ot with | [] => [] | _ => [pstripL ot]
      joinSp cur :: chunkAux cs ov rest (cur2 ++ [s]) (ot.length + slen)
    else
      chunkAux cs ov rest (cur ++ [s]) (clen + slen)

/-- `chunk_text` on `List Char`. -/
def chunk_textL (t : List Char) (cs ov : Nat) : List (List Char) :=
  match cleanTextL t with
  | [] => []
  | t' => chunkAux cs ov (sentencesL t') [] 0

/-- Ghost variant of `chunk_textL` carrying each chunk's sentence list. -/
def chunk_textLL (t : List Char) (cs ov : Nat) : List (List (List Char)) :=
  match cleanTextL t with
  | [] => []
  | t' => chunkAuxL cs ov (sentencesL t') [] 0

/-- `chunk_text` on `String` (chunk_size and overlap as naturals; the
source defaults are 512 and 50). -/
def chunk_text (s : String) (cs ov : Nat) : List String :=
  (chunk_textL s.data cs ov).map String.mk

/-! ### JSON values and Python dicts

`json.loads` is an external library call; it is modelled as an oracle
`J : String → Option JVal` (`none` models `json.JSONDecodeError`).  Python
dicts coming from JSON are association lists with unique keys. -/

/-- A parsed JSON value (numbers simplified to integers; no claim depends
on float literals). -/
inductive JVal where
  | null
  | bool (b : Bool)
  | num (n : Int)
  | str (s : String)
  | arr (elems : List JVal)
  | obj (fields : List (String × JVal))

/-- Python `k in d`. -/
def dictHas (d : List (String × JVal)) (k : String) : Bool :=
  d.any (fun p => p.1 == k)

/-- Python `d.get(k)`. -/
def dictGet (d : List (String × JVal)) (k : String) : Option JVal :=
  (d.find? (fun p => p.1 == k)).map (fun p => p.2)

/-- Key removal, as done by `d.pop(k, default)`. -/
def dictRemove (d : List (String × JVal)) (k : String) : List (String × JVal) :=
  d.filter (fun p => !(p.1 == k))

/-- Python `d[k] = v`: replace in place when the key exists, else append. -/
def dictSet (d : List (String × JVal)) (k : String) (v : JVal) : List (String × JVal) :=
  if dictHas d k then d.map (fun p => if p.1 == k then (k, v) else p) else d ++ [(k, v)]

/-- Python `d.setdefault(k, v)`. -/
def dictSetdefault (d : List (String × JVal)) (k : String) (v : JVal) :
    List (String × JVal) :=
  if dictHas d k then d else d ++ [(k, v)]

/-- A single-quote character, used by the Python `repr` rendering. -/
def sqChar : Char := Char.ofNat 39

mutual

/-- Python `repr` of a JSON-shaped value (string escaping elided; only
`str` values reach `str()` in the verified paths). -/
def pyRepr : JVal → String
  | JVal.null => "None"
  | JVal.bool true => "True"
  | JVal.bool false => "False"
  | JVal.num n => toString n
  | JVal.str s => String.mk [sqChar] ++ s ++ String.mk [sqChar]
  | JVal.arr l => "[" ++ String.intercalate ", " (pyReprList l) ++ "]"
  | JVal.obj l => "\x7b" ++ String.intercalate ", " (pyReprObj l) ++ "\x7d"

/-- `pyRepr` over the elements of an array. -/
def pyReprList : List JVal → List String
  | [] => []
  | v :: rest => pyRepr v :: pyReprList rest

/-- `pyRepr` over the fields of an object. -/
def pyReprObj : List (String × JVal) → List String
  | [] => []
  | p :: rest =>
    (String.mk [sqChar] ++ p.1 ++ String.mk [sqChar] ++ ": " ++ pyRepr p.2) :: pyReprObj rest

end

/-- Python `str()` of a JSON-shaped value. -/
def pyStr : JVal → String
  | JVal.str s => s
  | v => pyRepr v

/-- Python truthiness of a JSON-shaped value. -/
def jfalsy : JVal → Bool
  | JVal.null => true
  | JVal.bool b => !b
  | JVal.num n => n == 0
  | JVal.str s => s.isEmpty
  | JVal.arr l => l.isEmpty
  | JVal.obj l => l.isEmpty

/-- Python `o or dflt` where `o` is `d.get(k)` (absent key gives `None`). -/
def jvalOr (o : Option JVal) (dflt : JVal) : JVal :=
  match o with
  | none => dflt
  | some v => if jfalsy v then dflt else v

/-! ### `_parse_json_array` (src/backend/app/services/ai_service.py lines 27-57) -/

/-- First index at which `pat` occurs as a contiguous substring. -/
def subIdx : List Char → List Char → Option Nat
  | l, pat =>
    if pat.isPrefixOf l then some 0
    else
      match l with
      | [] => none
      | _ :: rest => (subIdx rest pat).map (fun i => i + 1)

/-- Python `pat in l`. -/
def containsSub (l pat : List Char) : Bool := (subIdx l pat).isSome

/-- Skip a literal `json` tag, modelling the regex group `(?:json)?` right
after an opening fence. -/
def dropJsonTag (l : List Char) : List Char :=
  if ("json".data).isPrefixOf l then l.drop 4 else l

/-- Model of `re.sub(r"^```(?:json)?\s*\n?", "", text)` on a text known to
start with a fence: drop the three backticks, the optional `json` tag, and
the following whitespace (the greedy `\s*` subsumes the optional newline). -/
def stripLeadFence (l : List Char) : List Char :=
  (dropJsonTag (l.drop 3)).dropWhile isPySpace

/-- Model of `re.sub(r"\n?```\s*$", "", text)` on a text known to end with a
fence: drop the trailing three backticks and one preceding newline if
present. -/
def stripTrailFence (l : List Char) : List Char :=
  let m := l.take (l.length - 3)
  if m.getLast? = some '\n' then m.dropLast else m

/-- Model of `re.search(r"```(?:json)?\s*([\s\S]*?)\s*```", text)`: the text
strictly between the first fence (with its optional `json` tag) and the
next fence; the `\s*` borders are absorbed by the caller's `strip`. -/
def fenceInner (l : List Char) : Option (List Char) :=
  match subIdx l ("```".data) with
  | none => none
  | some i =>
    let after := dropJsonTag (l.drop (i + 3))
    match subIdx after ("```".data) with
    | none => none
    | some j => some (after.take j)

/-- The fence-stripping block of `_parse_json_array` (lines 32-42): a
matched fence pair yields its stripped interior; a single unterminated
fence is stripped from whichever side it occurs. -/
def stripFences (l : List Char) : List Char :=
  match fenceInner l with
  | some inner => pstripL inner
  | none =>
    let a := if ("```".data).isPrefixOf l then stripLeadFence l else l
    let b := if ("```".data).isSuffixOf a then stripTrailFence a else a
    pstripL b

/-- The text handed to the first `json.loads` attempt: the stripped raw
text, fence-stripped when it contains a fence marker. -/
def fenceStripped (t : List Char) : List Char :=
  if containsSub t ("```".data) then stripFences t else t

/-- Index of the last occurrence of a character (Python `str.rfind`). -/
def findLastIdx (l : List Char) (c : Char) : Option Nat :=
  (l.reverse.findIdx? (fun x => x = c)).map (fun i => l.length - 1 - i)

/-- The substring from the first `[` to the last `]` inclusive, when both
exist in that order (lines 48-52). -/
def bracketSub (t : String) : Option String :=
  match t.data.findIdx? (fun c => c = '['), findLastIdx t.data ']' with
  | some s, some e =>
    if s < e then some (String.mk ((t.data.drop s).take (e + 1 - s))) else none
  | _, _ => none

/-- `_parse_json_array(text, label)`: strip, strip fences, attempt a direct
parse (non-array values give `[]`), then attempt the first-`[`-to-last-`]`
substring, and fall back to `[]`.  `J` is the `json.loads` oracle; the
Python local assignments `raw`/`text` are inlined. -/
def parse_json_array (J : String → Option JVal) (text : String) : List JVal :=
  match J (String.mk (fenceStripped (pstripS text).data)) with
  | some (JVal.arr l) => l
  | some _ => []
  | none =>
    match bracketSub (String.mk (fenceStripped (pstripS text).data)) with
    | some u =>
      match J u with
      | some (JVal.arr l) => l
      | some _ => []
      | none => []
    | none => []

/-! ### Quiz post-processing and route-level validation -/

/-- The dict transformation of the per-item post-processing loop shared by
`_generate_quiz_gemini` (lines 132-136) and `_generate_quiz_openai` (lines
204-208): move `correctAnswer` to `correct_answer` upper-cased and trimmed,
and default `options`/`explanation`. -/
def postprocessFields (d : List (String × JVal)) : List (String × JVal) :=
  let d1 := if dictHas d "correctAnswer" then
      dictSet (dictRemove d "correctAnswer") "correct_answer"
        (JVal.str (upperS (pstripS (pyStr ((dictGet d "correctAnswer").getD (JVal.str ""))))))
    else d
  let d2 := dictSetdefault d1 "options" (JVal.arr [])
  dictSetdefault d2 "explanation" (JVal.str "")

/-- One iteration of the post-processing loop.  On a non-dict item the
Python loop raises (`"correctAnswer" in item` is a `TypeError` on a number,
`None` or a bool, and `.pop`/`.setdefault` are missing on strings and
lists); `none` models that exception. -/
def postprocessQuizItem (v : JVal) : Option JVal :=
  match v with
  | JVal.obj d => some (JVal.obj (postprocessFields d))
  | _ => none

/-- The post-processing loop over the parsed items: the processed list when
every item is a dict, `none` when the loop raises at the first non-dict
item. -/
def postprocessQuiz : List JVal → Option (List JVal)
  | [] => some []
  | v :: rest =>
    match postprocessQuizItem v with
    | none => none
    | some w =>
      match postprocessQuiz rest with
      | none => none
      | some ws => some (w :: ws)

/-- The canonical quiz item produced by the route layer. -/
structure QuizItem where
  question : String
  options : List String
  correct_answer : String
  explanation : String

/-- The recognized answer letters of the route validation (quiz.py line 38). -/
def valid_letters : List String := ["A", "B", "C", "D"]

/-- The per-item validation of the quiz route (quiz.py lines 39-56):
`Except.ok none` models `continue`, `Except.error ()` the `AttributeError`
raised when `.strip()` is called on a truthy non-string
`question`/`explanation` value, or `.get` on a non-dict item.  The
`correct_answer` and option values pass through `str()` (`pyStr`) first and
cannot raise. -/
def routeQuizItem (v : JVal) : Except Unit (Option QuizItem) :=
  match v with
  | JVal.obj d =>
    match jvalOr (dictGet d "question") (JVal.str "") with
    | JVal.str qs =>
      let q := pstripS qs
      let opts := match jvalOr (dictGet d "options") (JVal.arr []) with
        | JVal.arr l => l.map (fun o => pstripS (pyStr o))
        | _ => []
      if q = "" ∨ opts.length < 2 then Except.ok none
      else
        let c0 := upperS (pstripS (pyStr (jvalOr (dictGet d "correct_answer") (JVal.str "A"))))
        let c1 := if c0 ∈ valid_letters then c0 else "A"
        match jvalOr (dictGet d "explanation") (JVal.str "") with
        | JVal.str es => Except.ok (some ⟨q, opts, c1, pstripS es⟩)
        | _ => Except.error ()
    | _ => Except.error ()
  | _ => Except.error ()

/-! ### Generation calls (ai_service.py lines 103-209)

Each provider text-generation call is an oracle `gen : Nat → String`
giving the n-th call's returned text; the second component of each result
counts the provider calls made, so retry behavior is visible. -/

/-- `_run_once` of `_generate_quiz_gemini` (lines 129-137): parse with the
`or "[]"` default, then post-process (`none` when the post-processing loop
raises). -/
def run_once_quiz (J : String → Option JVal) (text : String) : Option (List JVal) :=
  postprocessQuiz (parse_json_array J (if text = "" then "[]" else text))

/-- `_generate_quiz_gemini` (lines 119-143): one call, and exactly one
retry of the same call when the parsed item list is empty; an exception
raised inside the call (including the post-processing loop) propagates
uncaught after that single call.  The second component counts the provider
calls made. -/
def generate_quiz_gemini (J : String → Option JVal) (gen : Nat → String) :
    Option (List JVal) × Nat :=
  match run_once_quiz J (gen 0) with
  | none => (none, 1)
  | some [] => (run_once_quiz J (gen 1), 2)
  | some items => (some items, 1)

/-- `_generate_flashcards_gemini` (lines 103-116): a single call with no
retry. -/
def generate_flashcards_gemini (J : String → Option JVal) (gen : Nat → String) :
    List JVal × Nat :=
  (parse_json_array J (if gen 0 = "" then "[]" else gen 0), 1)

/-- `_generate_flashcards_openai` (lines 171-186): a single call with no
retry. -/
def generate_flashcards_openai (J : String → Option JVal) (gen : Nat → String) :
    List JVal × Nat :=
  (parse_json_array J (if gen 0 = "" then "[]" else gen 0), 1)

/-- `_generate_quiz_openai` (lines 189-209): a single call with
post-processing and no retry. -/
def generate_quiz_openai (J : String → Option JVal) (gen : Nat → String) :
    Option (List JVal) × Nat :=
  (run_once_quiz J (gen 0), 1)

/-! ### Provider chains (ai_service.py lines 237-341)

Each provider attempt is an oracle `Except PErr α`: `error` models the
call raising, carrying whether the error text matches the quota/billing
patterns of `_raise_if_quota_error`. -/

/-- A provider exception, classified by the quota/billing pattern match. -/
structure PErr where
  quota_like : Bool
deriving DecidableEq

/-- The errors a chain can surface to its caller. -/
inductive GenErr where
  /-- `ValueError(f"Gemini failed: ...")` from an explicit gemini choice. -/
  | gemini_failed (e : PErr)
  /-- `ValueError(f"Chat failed: ...")` (chat chain wraps). -/
  | chat_failed (e : PErr)
  /-- `ValueError(f"AI generation failed: ...")`. -/
  | ai_generation_failed (e : PErr)
  /-- The quota-exceeded `ValueError` with the remediation message. -/
  | quota_exceeded
  /-- `ValueError("No AI provider configured...")`. -/
  | no_provider
  /-- An exception propagating out unwrapped (the second gemini call is
  outside any try block). -/
  | raw (e : PErr)
deriving DecidableEq

/-- The configuration read by every chain. -/
structure GenSettings where
  ai_provider : String
  openai_api_key : Bool
  gemini_api_key : Bool

/-- `provider = (settings.ai_provider or "auto").strip().lower()`. -/
def providerOf (s : GenSettings) : String :=
  lowerS (pstripS (if s.ai_provider = "" then "auto" else s.ai_provider))

/-- `use_gemini_first = provider == "gemini" or (provider == "auto" and not
settings.openai_api_key)`. -/
def useGeminiFirst (s : GenSettings) : Bool :=
  providerOf s == "gemini" || (providerOf s == "auto" && !s.openai_api_key)

/-- The shared tail of each chain (the OpenAI stage, the OpenAI-failure
fallback to Gemini, and the final Gemini / no-provider stage);
`wrap` is the chain-specific generation-error constructor. -/
def genChainRest {α : Type} (wrap : PErr → GenErr) (s : GenSettings)
    (o1 g2 g3 : Except PErr α) : Except GenErr α :=
  if s.openai_api_key then
    match o1 with
    | Except.ok r => Except.ok r
    | Except.error e =>
      if s.gemini_api_key then
        match g2 with
        | Except.ok r => Except.ok r
        | Except.error e2 => Except.error (GenErr.raw e2)
      else if e.quota_like then Except.error GenErr.quota_exceeded
      else Except.error (wrap e)
  else if s.gemini_api_key then
    match g3 with
    | Except.ok r => Except.ok r
    | Except.error e => Except.error (GenErr.raw e)
  else Except.error GenErr.no_provider

/-- `generate_flashcards` (lines 237-266).  `g1` is the gemini-first
attempt, `o1` the OpenAI attempt, `g2` the gemini fallback after an OpenAI
failure, `g3` the gemini-only final stage. -/
def generate_flashcards {α : Type} (s : GenSettings)
    (g1 o1 g2 g3 : Except PErr α) : Except GenErr α :=
  if useGeminiFirst s && s.gemini_api_key then
    match g1 with
    | Except.ok r => Except.ok r
    | Except.error e =>
      if providerOf s = "gemini" then Except.error (GenErr.gemini_failed e)
      else genChainRest GenErr.ai_generation_failed s o1 g2 g3
  else genChainRest GenErr.ai_generation_failed s o1 g2 g3

/-- `generate_quiz` (lines 269-298): the same chain shape as
`generate_flashcards`. -/
def generate_quiz {α : Type} (s : GenSettings)
    (g1 o1 g2 g3 : Except PErr α) : Except GenErr α :=
  if useGeminiFirst s && s.gemini_api_key then
    match g1 with
    | Except.ok r => Except.ok r
    | Except.error e =>
      if providerOf s = "gemini" then Except.error (GenErr.gemini_failed e)
      else genChainRest GenErr.ai_generation_failed s o1 g2 g3
  else genChainRest GenErr.ai_generation_failed s o1 g2 g3

/-- `chat_completion_stream` (lines 301-341): same chain shape; a value is
the list of emitted fragments.  The Gemini streaming helper collects all
fragments before yielding, so `Except` over the full list is exact for the
Gemini stages; the OpenAI stage is modelled all-or-nothing — in the code a
mid-stream OpenAI failure has already yielded its partial fragment list
before the fallback runs, an effect outside this model and not relied on
by any theorem below. -/
def chat_completion_stream (s : GenSettings)
    (g1 o1 g2 g3 : Except PErr (List String)) : Except GenErr (List String) :=
  if useGeminiFirst s && s.gemini_api_key then
    match g1 with
    | Except.ok r => Except.ok r
    | Except.error e =>
      if providerOf s = "gemini" then Except.error (GenErr.chat_failed e)
      else genChainRest GenErr.chat_failed s o1 g2 g3
  else genChainRest GenErr.chat_failed s o1 g2 g3

/-! ### Embeddings (src/backend/app/services/embeddings.py) -/

/-- The sum of squares of a vector (real-number model of the float code). -/
def sumSq (l : List ℝ) : ℝ := (l.map (fun x => x * x)).sum

/-- The pad-or-truncate step of `_pad_and_normalize` (lines 23-26). -/
def padTrunc (arr : List ℝ) (d : Nat) : List ℝ :=
  if arr.length < d then arr ++ List.replicate (d - arr.length) 0 else arr.take d

/-- The normalization step of `_pad_and_normalize` (lines 27-28):
`norm = math.sqrt(sum(x*x)) or 1.0`, then divide each entry. -/
noncomputable def normalizeVec (arr : List ℝ) : List ℝ :=
  arr.map (fun x => x / (if Real.sqrt (sumSq arr) = 0 then 1 else Real.sqrt (sumSq arr)))

/-- `_pad_and_normalize(vectors, target_dim)` (lines 19-29); the identical
inlined code of `_embed_local_sync` (lines 71-82) is modelled by the same
function. -/
noncomputable def pad_and_normalize (vectors : List (List ℝ)) (target_dim : Nat) :
    List (List ℝ) :=
  vectors.map (fun arr => normalizeVec (padTrunc arr target_dim))

/-- The embedding configuration read by `generate_embeddings`. -/
structure EmbSettings where
  openai_api_key : Bool
  gemini_api_key : Bool
  embedding_fallback_to_local : Bool
  embedding_dimensions : Nat

/-- The errors `generate_embeddings` can surface. -/
inductive EmbErr where
  /-- `ValueError(f"Embedding generation failed: ...")`. -/
  | embedding_failed (e : PErr)
  /-- `ValueError("No embedding provider available...")`. -/
  | no_provider
  /-- An exception of the local path propagating (including the fastembed
  ImportError rewrap). -/
  | raw (e : PErr)
deriving DecidableEq

/-- Stages 2 and 3 of `generate_embeddings` (lines 137-158): Gemini when a
key is set, then the local fastembed fallback when enabled. -/
noncomputable def embRest (s : EmbSettings)
    (geminiResp localResp : Except PErr (List (List ℝ))) :
    Except EmbErr (List (List ℝ)) :=
  if s.gemini_api_key then
    match geminiResp with
    | Except.ok vs => Except.ok (pad_and_normalize vs s.embedding_dimensions)
    | Except.error e =>
      if !s.embedding_fallback_to_local then Except.error (EmbErr.embedding_failed e)
      else
        match localResp with
        | Except.ok vs => Except.ok (pad_and_normalize vs s.embedding_dimensions)
        | Except.error e2 => Except.error (EmbErr.raw e2)
  else if !s.embedding_fallback_to_local then Except.error EmbErr.no_provider
  else
    match localResp with
    | Except.ok vs => Except.ok (pad_and_normalize vs s.embedding_dimensions)
    | Except.error e2 => Except.error (EmbErr.raw e2)

/-- `generate_embeddings(texts)` (lines 98-158).  Provider responses are
oracles; the OpenAI stage (lines 110-124) returns its vectors as received,
with no call to `_pad_and_normalize`. -/
noncomputable def generate_embeddings (s : EmbSettings)
    (openaiResp geminiResp localResp : Except PErr (List (List ℝ)))
    (texts : List String) : Except EmbErr (List (List ℝ)) :=
  match texts with
  | [] => Except.ok []
  | _ =>
    if s.openai_api_key then
      match openaiResp with
      | Except.ok vs => Except.ok vs
      | Except.error _ => embRest s geminiResp localResp
    else embRest s geminiResp localResp

/-! ### Concrete oracles used by witnesses and counterexamples -/

/-- A miniature `json.loads` oracle deciding just the strings the concrete
examples use. -/
def jsonOracle (q : String) : Option JVal :=
  if q = "\x7b\"a\": [1]\x7d" then some (JVal.obj [("a", JVal.arr [JVal.num 1])])
  else if q = "[1]" then some (JVal.arr [JVal.num 1])
  else none

/-- A miniature `json.loads` oracle for the quiz transcript: decodes only
the one-dict JSON array response. -/
def quizJsonOracle (q : String) : Option JVal :=
  if q = "[\x7b\"question\": \"q\"\x7d]" then
    some (JVal.arr [JVal.obj [("question", JVal.str "q")]])
  else none

/-- A provider transcript whose first response is unparseable and whose
second is a valid JSON array of one dict. -/
def quizGenOracle : Nat → String :=
  fun n => if n = 0 then "not json" else "[\x7b\"question\": \"q\"\x7d]"

/-- The string loop and the instrumented loop agree: the source emits
exactly the joins of the ghost sentence lists. -/
theorem chunkAux_eq_map (cs ov : Nat) :
    ∀ (ss cur : List (List Char)) (clen : Nat),
      chunkAux cs ov ss cur clen = (chunkAuxL cs ov ss cur clen).map joinSp := by
  intro ss
  induction ss with
  | nil =>
    intro cur clen
    cases cur <;> simp [chunkAux, chunkAuxL]
  | cons s rest ih =>
    intro cur clen
    simp only [chunkAux, chunkAuxL]
    split
    · simp [ih]
    · exact ih _ _

theorem chunk_textL_eq_map (t : List Char) (cs ov : Nat) :
    chunk_textL t cs ov = (chunk_textLL t cs ov).map joinSp := by
  unfold chunk_textL chunk_textLL
  cases h : cleanTextL t <;> simp [chunkAux_eq_map]

/-! ### Helper lemmas about `joinSp`, `pstripL` and `seedOf` -/

theorem joinSp_cons_of_ne (s : List Char) {l : List (List Char)} (h : l ≠ []) :
    joinSp (s :: l) = s ++ ' ' :: joinSp l := by
  cases l with
  | nil => exact absurd rfl h
  | cons a r => rfl

theorem joinSp_append_of_ne {l₁ l₂ : List (List Char)} (h₁ : l₁ ≠ []) (h₂ : l₂ ≠ []) :
    joinSp (l₁ ++ l₂) = joinSp l₁ ++ ' ' :: joinSp l₂ := by
  induction l₁ with
  | nil => exact absurd rfl h₁
  | cons x l₁ ih =>
    cases l₁ with
    | nil =>
      cases l₂ with
      | nil => exact absurd rfl h₂
      | cons b r => simp [joinSp]
    | cons y l₁' =>
      have hne : (y :: l₁') ++ l₂ ≠ [] := by simp
      calc joinSp (x :: (y :: l₁' ++ l₂))
          = x ++ ' ' :: joinSp (y :: l₁' ++ l₂) := joinSp_cons_of_ne x hne
        _ = x ++ ' ' :: (joinSp (y :: l₁') ++ ' ' :: joinSp l₂) := by
              rw [ih (by simp)]
        _ = joinSp (x :: y :: l₁') ++ ' ' :: joinSp l₂ := by
              rw [joinSp_cons_of_ne x (by simp)]; simp

theorem self_prefix_joinSp (x : List Char) (l : List (List Char)) :
    x <+: joinSp (x :: l) := by
  cases l with
  | nil => exact ⟨[], by simp [joinSp]⟩
  | cons a r => exact ⟨' ' :: joinSp (a :: r), rfl⟩

theorem joinSp_suffix_of_suffix {l₁ l₂ : List (List Char)} (h : l₁ <:+ l₂) :
    joinSp l₁ <:+ joinSp l₂ := by
  rcases h with ⟨pre, rfl⟩
  cases hl : l₁ with
  | nil => simp [joinSp]
  | cons a r =>
    cases hp : pre with
    | nil => simp
    | cons b q =>
      rw [joinSp_append_of_ne (by simp) (by simp [hl])]
      exact ⟨joinSp (b :: q) ++ [' '], by simp⟩

theorem length_pstripL_le (l : List Char) : (pstripL l).length ≤ l.length := by
  unfold pstripL lstripL
  calc ((l.dropWhile isPySpace).reverse.dropWhile isPySpace).reverse.length
      = ((l.dropWhile isPySpace).reverse.dropWhile isPySpace).length := by simp
    _ ≤ (l.dropWhile isPySpace).reverse.length := (List.dropWhile_suffix _).length_le
    _ = (l.dropWhile isPySpace).length := by simp
    _ ≤ l.length := (List.dropWhile_suffix _).length_le

theorem head?_pstripL {l : List Char} : ∀ c ∈ (pstripL l).head?, isPySpace c = false := by
  intro c hc
  rw [Option.mem_def] at hc
  unfold pstripL lstripL at hc
  rw [List.head?_reverse] at hc
  have hne : (l.dropWhile isPySpace).reverse.dropWhile isPySpace ≠ [] := by
    intro h0
    rw [h0] at hc
    simp at hc
  have hsuf : (l.dropWhile isPySpace).reverse.dropWhile isPySpace <:+
      (l.dropWhile isPySpace).reverse := List.dropWhile_suffix isPySpace
  obtain ⟨pre, hpre⟩ := hsuf
  have h1 : ((l.dropWhile isPySpace).reverse).getLast? =
      ((l.dropWhile isPySpace).reverse.dropWhile isPySpace).getLast? := by
    conv_lhs => rw [← hpre]
    exact List.getLast?_append_of_ne_nil _ hne
  rw [← h1, List.getLast?_reverse] at hc
  have h2 := List.head?_dropWhile_not isPySpace l
  rw [hc] at h2
  exact h2

theorem getLast?_pstripL {l : List Char} : ∀ c ∈ (pstripL l).getLast?, isPySpace c = false := by
  intro c hc
  rw [Option.mem_def] at hc
  unfold pstripL lstripL at hc
  rw [List.getLast?_reverse] at hc
  have h2 := List.head?_dropWhile_not isPySpace (l.dropWhile isPySpace).reverse
  rw [hc] at h2
  exact h2

/-- A string whose head is not whitespace does not strip to empty. -/
theorem pstripL_ne_nil {l : List Char} {c : Char} (hh : l.head? = some c)
    (hc : isPySpace c = false) : pstripL l ≠ [] := by
  unfold pstripL lstripL
  intro h0
  rw [List.reverse_eq_nil_iff, List.dropWhile_eq_nil_iff] at h0
  cases l with
  | nil => simp at hh
  | cons a t =>
    have ha : a = c := by simpa using hh
    subst ha
    rw [List.dropWhile_cons_of_neg (by simp [hc])] at h0
    have h2 := h0 a (by simp)
    simp [h2] at hc

/-- A chunk-buffer entry is a clean sentence: nonempty, with no leading and
no trailing whitespace. -/
def goodS (x : List Char) : Prop :=
  x ≠ [] ∧ (∀ c ∈ x.head?, isPySpace c = false) ∧ (∀ c ∈ x.getLast?, isPySpace c = false)

theorem goodS_pstripL {l : List Char} (h : pstripL l ≠ []) : goodS (pstripL l) :=
  ⟨h, head?_pstripL, getLast?_pstripL⟩

theorem goodS_of_mem_sentencesL {t : List Char} {s : List Char}
    (h : s ∈ sentencesL t) : goodS s := by
  unfold sentencesL at h
  rw [List.mem_filter] at h
  obtain ⟨h1, h2⟩ := h
  rw [List.mem_map] at h1
  obtain ⟨y, _, rfl⟩ := h1
  refine goodS_pstripL ?_
  intro h0
  rw [h0] at h2
  simp at h2

theorem goodS_joinSp : ∀ {l : List (List Char)}, l ≠ [] → (∀ x ∈ l, goodS x) →
    goodS (joinSp l) := by
  intro l
  induction l with
  | nil => intro h; exact absurd rfl h
  | cons x r ih =>
    intro _ hall
    have hx : goodS x := hall x (by simp)
    cases r with
    | nil => simpa [joinSp] using hx
    | cons y q =>
      have hr : goodS (joinSp (y :: q)) := ih (by simp) (fun z hz => hall z (by simp [hz]))
      rw [joinSp_cons_of_ne x (by simp)]
      refine ⟨by simp, ?_, ?_⟩
      · intro c hc
        rw [List.head?_append] at hc
        cases hh : x.head? with
        | none => rw [List.head?_eq_none_iff] at hh; exact absurd hh hx.1
        | some d =>
          rw [hh] at hc
          simp at hc
          subst hc
          exact hx.2.1 d hh
      · intro c hc
        have hjn : joinSp (y :: q) ≠ [] := hr.1
        have h1 : (x ++ ' ' :: joinSp (y :: q)).getLast? = (' ' :: joinSp (y :: q)).getLast? :=
          List.getLast?_append_of_ne_nil _ (by simp)
        have h2 : (' ' :: joinSp (y :: q)).getLast? = (joinSp (y :: q)).getLast? := by
          cases hj : joinSp (y :: q) with
          | nil => exact absurd hj hjn
          | cons b r => simp
        rw [Option.mem_def, h1, h2] at hc
        exact hr.2.2 c hc

theorem seedOfAux_length {ov : Nat} : ∀ (rl : List (List Char)) (acc : List Char),
    acc.length ≤ ov → (seedOfAux ov rl acc).length ≤ ov := by
  intro rl
  induction rl with
  | nil => intro acc h; simpa [seedOfAux] using h
  | cons s rl ih =>
    intro acc h
    unfold seedOfAux
    split
    · rename_i hguard
      apply ih
      split
      · omega
      · simp only [List.length_append, List.length_cons]
        omega
    · exact h

theorem seedOf_length (cur : List (List Char)) (ov : Nat) : (seedOf cur ov).length ≤ ov :=
  seedOfAux_length cur.reverse [] (by simp)

/-- The overlap walk returns the join of a suffix of the closed chunk's
sentence list (whose entries are all nonempty). -/
theorem seedOfAux_spec {ov : Nat} : ∀ (rl : List (List Char)) (acc : List Char)
    (tl : List (List Char)), (∀ x ∈ rl, x ≠ []) → (∀ x ∈ tl, x ≠ []) →
    acc = joinSp tl → (acc = [] → tl = []) →
    ∃ tl', tl' <:+ rl.reverse ++ tl ∧ seedOfAux ov rl acc = joinSp tl' ∧
      (∀ x ∈ tl', x ≠ []) ∧ (seedOfAux ov rl acc = [] → tl' = []) := by
  intro rl
  induction rl with
  | nil =>
    intro acc tl _ htl hacc hemp
    refine ⟨tl, by simp, ?_, htl, ?_⟩
    · simpa [seedOfAux] using hacc
    · simp only [seedOfAux]
      intro h
      exact hemp h
  | cons s rl ih =>
    intro acc tl hrl htl hacc hemp
    have hs_ne : s ≠ [] := hrl s (List.mem_cons_self s rl)
    have hrl' : ∀ y ∈ rl, y ≠ [] := fun y hy => hrl y (List.mem_cons_of_mem s hy)
    by_cases hguard : acc.length + s.length + 1 ≤ ov
    · rw [seedOfAux, if_pos hguard]
      cases acc with
      | nil =>
        have htl0 : tl = [] := hemp rfl
        obtain ⟨tl', h1, h2, h3, h4⟩ := ih s [s] hrl'
          (fun y hy => by rw [List.mem_singleton] at hy; subst hy; exact hs_ne)
          (by rfl) (fun h => absurd h hs_ne)
        refine ⟨tl', ?_, h2, h3, h4⟩
        rw [htl0, List.append_nil, List.reverse_cons]
        exact h1
      | cons a as =>
        have htl_ne : tl ≠ [] := by
          intro h0
          rw [h0] at hacc
          exact List.noConfusion (hacc.trans rfl)
        obtain ⟨tl', h1, h2, h3, h4⟩ := ih (s ++ ' ' :: (a :: as)) (s :: tl) hrl'
          (fun y hy => by
            rcases List.mem_cons.mp hy with h | h
            · subst h; exact hs_ne
            · exact htl y h)
          (by rw [joinSp_cons_of_ne s htl_ne, ← hacc])
          (by simp)
        refine ⟨tl', ?_, h2, h3, h4⟩
        rw [List.reverse_cons, List.append_assoc]
        exact h1
    · rw [seedOfAux, if_neg hguard]
      refine ⟨tl, ?_, hacc, htl, hemp⟩
      rw [List.reverse_cons, List.append_assoc]
      exact (List.suffix_append _ _).trans (List.suffix_append _ _)

theorem seedOf_spec {cur : List (List Char)} (h : ∀ x ∈ cur, x ≠ []) (ov : Nat) :
    ∃ tl, tl <:+ cur ∧ seedOf cur ov = joinSp tl ∧ (∀ x ∈ tl, x ≠ []) ∧
      (seedOf cur ov = [] → tl = []) := by
  have := @seedOfAux_spec ov cur.reverse [] []
    (fun x hx => h x (by simpa using hx)) (by simp) (by simp [joinSp]) (by simp)
  simpa [seedOf] using this

theorem seedOf_suffix {cur : List (List Char)} (h : ∀ x ∈ cur, x ≠ []) (ov : Nat) :
    seedOf cur ov <:+ joinSp cur := by
  obtain ⟨tl, hsuf, heq, _, _⟩ := seedOf_spec h ov
  rw [heq]
  exact joinSp_suffix_of_suffix hsuf

/-- If the seed of a clean buffer is nonempty, its strip is a nonempty
clean string. -/
theorem goodS_seed {cur : List (List Char)} (h : ∀ x ∈ cur, goodS x) (ov : Nat)
    (hne : seedOf cur ov ≠ []) : goodS (pstripL (seedOf cur ov)) := by
  obtain ⟨tl, _, heq, htl, hemp⟩ := seedOf_spec (fun x hx => (h x hx).1) ov
  have htl_ne : tl ≠ [] := fun h0 => hne (by rw [heq, h0]; rfl)
  have hgood : goodS (joinSp tl) := by
    refine goodS_joinSp htl_ne ?_
    intro x hx
    obtain ⟨tl2, htl2⟩ := ‹tl <:+ cur›
    exact h x (htl2 ▸ List.mem_append_right tl2 hx)
  apply goodS_pstripL
  rw [heq]
  rcases hjt : joinSp tl with _ | ⟨hd, tlr⟩
  · exact absurd hjt hgood.1
  · exact pstripL_ne_nil rfl (hgood.2.1 hd (by rw [hjt]; rfl))

/-! ### Structural invariants of the chunk accumulation loop -/

/-- The first chunk emitted from a nonempty buffer extends that buffer. -/
theorem chunkAuxL_head (cs ov : Nat) : ∀ (ss cur : List (List Char)) (clen : Nat),
    cur ≠ [] → ∃ first rest2, chunkAuxL cs ov ss cur clen = first :: rest2 ∧ cur <+: first := by
  intro ss
  induction ss with
  | nil =>
    intro cur clen hne
    cases cur with
    | nil => exact absurd rfl hne
    | cons a r => exact ⟨a :: r, [], rfl, List.prefix_rfl⟩
  | cons s rest ih =>
    intro cur clen hne
    rw [chunkAuxL]
    split
    · exact ⟨cur, _, rfl, List.prefix_rfl⟩
    · obtain ⟨first, rest2, h1, h2⟩ := ih (cur ++ [s]) (clen + (s.length + 1)) (by simp)
      exact ⟨first, rest2, h1, (List.prefix_append cur [s]).trans h2⟩

/-- Every chunk emitted by the loop is a nonempty list of clean sentences,
provided the incoming buffer and sentences are clean. -/
theorem chunkAuxL_good (cs ov : Nat) : ∀ (ss cur : List (List Char)) (clen : Nat),
    (∀ x ∈ cur, goodS x) → (∀ s ∈ ss, goodS s) →
    ∀ l ∈ chunkAuxL cs ov ss cur clen, l ≠ [] ∧ ∀ x ∈ l, goodS x := by
  intro ss
  induction ss with
  | nil =>
    intro cur clen hcur _ l hl
    cases cur with
    | nil => simp [chunkAuxL] at hl
    | cons a r =>
      have he : chunkAuxL cs ov [] (a :: r) clen = [a :: r] := rfl
      rw [he, List.mem_singleton] at hl
      subst hl
      exact ⟨List.cons_ne_nil a r, hcur⟩
  | cons s rest ih =>
    intro cur clen hcur hss l hl
    have hs : goodS s := hss s (List.mem_cons_self s rest)
    have hss' : ∀ y ∈ rest, goodS y := fun y hy => hss y (List.mem_cons_of_mem s hy)
    rw [chunkAuxL] at hl
    split at hl
    · rename_i hcond
      rcases List.mem_cons.mp hl with h | h
      · subst h
        exact ⟨hcond.2, hcur⟩
      · refine ih _ _ ?_ hss' l h
        intro x hx
        rcases List.mem_append.mp hx with h2 | h2
        · rcases hseed : seedOf cur ov with _ | ⟨c0, o0⟩
          · rw [hseed] at h2
            simp at h2
          · rw [hseed] at h2
            simp at h2
            subst h2
            have := goodS_seed hcur ov (by rw [hseed]; simp)
            rwa [hseed] at this
        · rw [List.mem_singleton] at h2
          subst h2
          exact hs
    · refine ih _ _ ?_ hss' l hl
      intro x hx
      rcases List.mem_append.mp hx with h2 | h2
      · exact hcur x h2
      · rw [List.mem_singleton] at h2
        subst h2
        exact hs

/-- The strip of a seed text heads the join of the freshly reseeded buffer. -/
theorem seed_prefix_next (ot s : List Char) (ext : List (List Char)) :
    pstripL ot <+: joinSp ((match ot with
      | [] => ([] : List (List Char)) | _ => [pstripL ot]) ++ s :: ext) := by
  cases ot with
  | nil => exact ⟨joinSp (s :: ext), rfl⟩
  | cons c0 o0 =>
    have h1 : ([pstripL (c0 :: o0)] ++ s :: ext) = pstripL (c0 :: o0) :: s :: ext := by simp
    rw [h1, joinSp_cons_of_ne _ (by simp)]
    exact List.prefix_append _ _

/-- Adjacency invariant: between consecutive emitted chunks, the overlap
seed computed from the earlier chunk is both a suffix of its text and (after
the strip) a prefix of the next chunk's text. -/
theorem chunkAuxL_chain (cs ov : Nat) : ∀ (ss cur : List (List Char)) (clen : Nat),
    (∀ x ∈ cur, goodS x) → (∀ s ∈ ss, goodS s) →
    List.Chain' (fun a b => seedOf a ov <:+ joinSp a ∧ pstripL (seedOf a ov) <+: joinSp b)
      (chunkAuxL cs ov ss cur clen) := by
  intro ss
  induction ss with
  | nil =>
    intro cur clen _ _
    cases cur <;> simp [chunkAuxL]
  | cons s rest ih =>
    intro cur clen hcur hss
    have hs : goodS s := hss s (List.mem_cons_self s rest)
    have hss' : ∀ y ∈ rest, goodS y := fun y hy => hss y (List.mem_cons_of_mem s hy)
    rw [chunkAuxL]
    split
    · rename_i hcond
      have hcur2_good : ∀ x ∈ (match seedOf cur ov with
          | [] => ([] : List (List Char)) | _ => [pstripL (seedOf cur ov)]) ++ [s], goodS x := by
        intro x hx
        rcases List.mem_append.mp hx with h2 | h2
        · rcases hseed : seedOf cur ov with _ | ⟨c0, o0⟩
          · rw [hseed] at h2
            simp at h2
          · rw [hseed] at h2
            simp at h2
            subst h2
            have := goodS_seed hcur ov (by rw [hseed]; simp)
            rwa [hseed] at this
        · rw [List.mem_singleton] at h2
          subst h2
          exact hs
      rw [List.chain'_cons']
      constructor
      · intro b hb
        obtain ⟨first, rest2, hh, hpre⟩ := chunkAuxL_head cs ov rest
          ((match seedOf cur ov with
            | [] => ([] : List (List Char)) | _ => [pstripL (seedOf cur ov)]) ++ [s])
          ((seedOf cur ov).length + (s.length + 1)) (by simp)
        rw [hh] at hb
        have hb2 : b = first := by simpa using hb.symm
        obtain ⟨ext, hext⟩ := hpre
        rw [hb2, ← hext, List.append_assoc]
        exact ⟨seedOf_suffix (fun x hx => (hcur x hx).1) ov, seed_prefix_next _ s ext⟩
      · exact ih _ _ hcur2_good hss'
    · exact ih _ _ (by
        intro x hx
        rcases List.mem_append.mp hx with h2 | h2
        · exact hcur x h2
        · rw [List.mem_singleton] at h2
          subst h2
          exact hs) hss'

/-- Size invariant of the loop: every emitted chunk either fits in
`chunk_size`, or consists of the (possibly absent) overlap seed followed by
a single sentence — the only two ways a buffer can be closed while its
single sentence was placed unconditionally. `Q` abstracts membership of the
sentence stream. -/
theorem chunkAuxL_size (cs ov : Nat) (Q : List Char → Prop) :
    ∀ (ss cur : List (List Char)) (clen : Nat),
    (∀ s ∈ ss, Q s) →
    ((joinSp cur).length ≤ cs ∨
      ∃ s, Q s ∧ (cur = [s] ∨ ∃ sd, cur = [sd, s] ∧ sd.length ≤ ov)) →
    (joinSp cur).length ≤ clen →
    ∀ l ∈ chunkAuxL cs ov ss cur clen,
      (joinSp l).length ≤ cs ∨
        ∃ s, Q s ∧ (l = [s] ∨ ∃ sd, l = [sd, s] ∧ sd.length ≤ ov) := by
  intro ss
  induction ss with
  | nil =>
    intro cur clen _ hcur _ l hl
    cases cur with
    | nil => simp [chunkAuxL] at hl
    | cons a r =>
      have he : chunkAuxL cs ov [] (a :: r) clen = [a :: r] := rfl
      rw [he, List.mem_singleton] at hl
      subst hl
      exact hcur
  | cons s rest ih =>
    intro cur clen hss hcur hlen l hl
    have hsQ : Q s := hss s (List.mem_cons_self s rest)
    have hss' : ∀ y ∈ rest, Q y := fun y hy => hss y (List.mem_cons_of_mem s hy)
    rw [chunkAuxL] at hl
    split at hl
    · rename_i hcond
      rcases List.mem_cons.mp hl with h | h
      · subst h
        exact hcur
      · refine ih _ _ hss' ?_ ?_ l h
        · rcases hseed : seedOf cur ov with _ | ⟨c0, o0⟩
          · exact Or.inr ⟨s, hsQ, Or.inl rfl⟩
          · refine Or.inr ⟨s, hsQ, Or.inr ⟨pstripL (c0 :: o0), rfl, ?_⟩⟩
            calc (pstripL (c0 :: o0)).length ≤ (c0 :: o0).length := length_pstripL_le _
              _ ≤ ov := by rw [← hseed]; exact seedOf_length cur ov
        · rcases hseed : seedOf cur ov with _ | ⟨c0, o0⟩
          · simp [joinSp]
          · have h1 : joinSp [pstripL (c0 :: o0), s] = pstripL (c0 :: o0) ++ ' ' :: s := rfl
            have h2 : (pstripL (c0 :: o0)).length ≤ (c0 :: o0).length := length_pstripL_le _
            simp only [List.length_cons] at h2
            simp only [List.cons_append, List.nil_append, h1, List.length_append,
              List.length_cons]
            omega
    · rename_i hcond
      rcases Decidable.not_and_iff_or_not.mp hcond with h2 | h2
      · -- the next sentence still fits: the buffer keeps satisfying the size bound
        have hfit : clen + (s.length + 1) ≤ cs := by omega
        cases cur with
        | nil =>
          refine ih _ _ hss' (Or.inr ⟨s, hsQ, Or.inl rfl⟩) ?_ l hl
          have h3 : joinSp [s] = s := rfl
          rw [h3]
          omega
        | cons a r =>
          have h4 : joinSp ((a :: r) ++ [s]) = joinSp (a :: r) ++ ' ' :: s := by
            have h5 : joinSp ([s]) = s := rfl
            rw [@joinSp_append_of_ne (a :: r) [s] (by simp) (by simp), h5]
          refine ih _ _ hss' ?_ ?_ l hl
          · left
            rw [h4]
            simp only [List.length_append, List.length_cons]
            omega
          · rw [h4]
            simp only [List.length_append, List.length_cons]
            omega
      · -- the buffer was empty: the new buffer is the single sentence
        have hnil : cur = [] := by
          by_contra hne
          exact h2 hne
        subst hnil
        refine ih _ _ hss' (Or.inr ⟨s, hsQ, Or.inl rfl⟩) ?_ l hl
        have h3 : joinSp [s] = s := rfl
        rw [h3]
        omega

/-- A string whose first and last characters are not whitespace is fixed by
`strip`. -/
theorem pstripL_eq_self {l : List Char} (h1 : ∀ c ∈ l.head?, isPySpace c = false)
    (h2 : ∀ c ∈ l.getLast?, isPySpace c = false) : pstripL l = l := by
  unfold pstripL lstripL
  have e1 : l.dropWhile isPySpace = l := by
    cases hl : l with
    | nil => simp
    | cons a t => exact List.dropWhile_cons_of_neg (by simp [h1 a (by rw [hl]; rfl)])
  rw [e1]
  have e2 : l.reverse.dropWhile isPySpace = l.reverse := by
    cases hr : l.reverse with
    | nil => simp
    | cons a t =>
      refine List.dropWhile_cons_of_neg ?_
      have ha : l.getLast? = some a := by rw [← List.head?_reverse, hr]; rfl
      simp [h2 a ha]
  rw [e2, List.reverse_reverse]

/-! ### Claim theorems about normalization and chunking -/

/-- Claim C2 (code bug evidence): `clean_text` applies the whitespace
collapse `\s+ -> " "` before the newline-capping pass, so the input
`"a\n\n\nb"` comes out as `"a b"` — the paragraph break is NOT preserved as
two newlines, contrary to the specified behavior; the `\n\x7b3,\x7d` pass can
never fire because no newline survives the first substitution. -/
theorem claim_C2_clean_text_eval :
    clean_text "a\n\n\nb" = "a b" ∧ ∀ c ∈ (clean_text "a\n\n\nb").data, c ≠ '\n' := by
  constructor
  · decide
  · decide

/-- Claim C6 counterexample: with `chunk_size := 10` and `overlap := 9`, the
input below produces the chunk `"abcdef. xy."` of length 11 > 10, although
every sentence of the split has length at most 10 — so a chunk can exceed
`chunk_size` without containing any single sentence that alone exceeds it
(the excess comes from the overlap seed prepended to the next sentence). -/
theorem claim_C6_counterexample :
    chunk_text "abcdef. xy. pqrstuv." 10 9 = ["abcdef.", "abcdef. xy.", "xy. pqrstuv."] ∧
    ("abcdef. xy." : String).length = 11 ∧
    sentencesL (cleanTextL ("abcdef. xy. pqrstuv." : String).data) =
      ["abcdef.".data, "xy.".data, "pqrstuv.".data] ∧
    (∀ s ∈ sentencesL (cleanTextL ("abcdef. xy. pqrstuv." : String).data),
      s.length ≤ 10) := by
  refine ⟨by decide, by decide, by decide, by decide⟩

/-- Claim C6 (amended): every chunk produced by `chunk_text` has length at
most `chunk_size`, except a chunk consisting of the overlap seed (possibly
absent) followed by a single sentence of the split; such a chunk is placed
whole, and its seed part has length at most `overlap`.  (The
oversized-single-sentence case of the original claim is the sub-case with
no seed.) -/
theorem claim_C6_chunk_size : ∀ (t : List Char) (cs ov : Nat),
    chunk_textL t cs ov = (chunk_textLL t cs ov).map joinSp ∧
    ∀ l ∈ chunk_textLL t cs ov,
      (joinSp l).length ≤ cs ∨
        ∃ s, s ∈ sentencesL (cleanTextL t) ∧
          (l = [s] ∨ ∃ sd, l = [sd, s] ∧ sd.length ≤ ov) := by
  intro t cs ov
  refine ⟨chunk_textL_eq_map t cs ov, ?_⟩
  intro l hl
  unfold chunk_textLL at hl
  cases hct : cleanTextL t with
  | nil =>
    rw [hct] at hl
    simp at hl
  | cons c0 t0 =>
    rw [hct] at hl
    exact chunkAuxL_size cs ov (fun s => s ∈ sentencesL (c0 :: t0))
      (sentencesL (c0 :: t0)) [] 0 (fun s hs => hs)
      (Or.inl (by simp [joinSp])) (by simp [joinSp]) l hl

/-- Claim C6 witness: the counterexample chunk is covered by the amended
statement through its seed-plus-one-sentence disjunct. -/
theorem claim_C6_chunk_size_witness :
    (["abcdef.".data, "xy.".data] ∈ chunk_textLL "abcdef. xy. pqrstuv.".data 10 9) ∧
    ((joinSp ["abcdef.".data, "xy.".data]).length ≤ 10 ∨
      ∃ s, s ∈ sentencesL (cleanTextL "abcdef. xy. pqrstuv.".data) ∧
        (["abcdef.".data, "xy.".data] = [s] ∨
          ∃ sd, ["abcdef.".data, "xy.".data] = [sd, s] ∧ sd.length ≤ 9)) :=
  ⟨by decide, (claim_C6_chunk_size "abcdef. xy. pqrstuv.".data 10 9).2
    ["abcdef.".data, "xy.".data] (by decide)⟩

/-- Claim C7: for adjacent chunks `i`, `i+1`, the overlap seed accumulated
backward from chunk `i`'s sentences is a suffix of chunk `i`'s text and (as
seeded, i.e. stripped) a prefix of chunk `i+1`'s text.  This holds for every
`overlap`, in particular whenever `overlap > 0`. -/
theorem claim_C7_overlap_seed : ∀ (t : List Char) (cs ov : Nat),
    chunk_textL t cs ov = (chunk_textLL t cs ov).map joinSp ∧
    List.Chain' (fun a b => seedOf a ov <:+ joinSp a ∧ pstripL (seedOf a ov) <+: joinSp b)
      (chunk_textLL t cs ov) := by
  intro t cs ov
  refine ⟨chunk_textL_eq_map t cs ov, ?_⟩
  unfold chunk_textLL
  cases hct : cleanTextL t with
  | nil => simp
  | cons c0 t0 =>
    exact chunkAuxL_chain cs ov (sentencesL (c0 :: t0)) [] 0 (by simp)
      (fun s hs => goodS_of_mem_sentencesL hs)

/-- Claim C10: every chunk returned by `chunk_text` is a nonempty string
with no leading or trailing whitespace (its `strip` is the identity). -/
theorem claim_C10_chunks_clean : ∀ (s : String) (cs ov : Nat),
    ∀ c ∈ chunk_text s cs ov, c ≠ "" ∧ pstripS c = c := by
  intro s cs ov c hc
  unfold chunk_text at hc
  rw [List.mem_map] at hc
  obtain ⟨x, hx, rfl⟩ := hc
  rw [chunk_textL_eq_map, List.mem_map] at hx
  obtain ⟨l, hl, rfl⟩ := hx
  unfold chunk_textLL at hl
  have hgood : l ≠ [] ∧ ∀ x ∈ l, goodS x := by
    cases hct : cleanTextL s.data with
    | nil =>
      rw [hct] at hl
      simp at hl
    | cons c0 t0 =>
      rw [hct] at hl
      exact chunkAuxL_good cs ov (sentencesL (c0 :: t0)) [] 0 (by simp)
        (fun y hy => goodS_of_mem_sentencesL hy) l hl
  have gs : goodS (joinSp l) := goodS_joinSp hgood.1 hgood.2
  constructor
  · intro h0
    have h1 : joinSp l = [] := by
      have h2 := congrArg String.data h0
      simpa using h2
    exact gs.1 h1
  · exact congrArg String.mk (pstripL_eq_self gs.2.1 gs.2.2)

/-- Claim C10 witness: a concrete run with untrimmed input yields chunks
that are nonempty and strip-fixed. -/
theorem claim_C10_chunks_clean_witness :
    ("ab." ∈ chunk_text "  ab.   cd.  " 5 0) ∧ ("ab." ≠ "" ∧ pstripS "ab." = "ab.") :=
  ⟨by decide, claim_C10_chunks_clean "  ab.   cd.  " 5 0 "ab." (by decide)⟩

/-! ### Dictionary lemmas -/

theorem dictGet_of_has_false {d : List (String × JVal)} {k : String}
    (h : dictHas d k = false) : dictGet d k = none := by
  induction d with
  | nil => rfl
  | cons p rest ih =>
    rw [dictHas, List.any_cons, Bool.or_eq_false_iff] at h
    rw [dictGet, List.find?_cons, h.1]
    exact ih (by rw [dictHas]; exact h.2)

theorem dictGet_append_of_has_false {d1 d2 : List (String × JVal)} {k : String}
    (h : dictHas d1 k = false) : dictGet (d1 ++ d2) k = dictGet d2 k := by
  induction d1 with
  | nil => rfl
  | cons p rest ih =>
    rw [dictHas, List.any_cons, Bool.or_eq_false_iff] at h
    rw [List.cons_append, dictGet, List.find?_cons, h.1]
    exact ih (by rw [dictHas]; exact h.2)

theorem dictGet_append_single_other {d : List (String × JVal)} {k k2 : String}
    {v : JVal} (h : k2 ≠ k) : dictGet (d ++ [(k2, v)]) k = dictGet d k := by
  induction d with
  | nil =>
    show dictGet [(k2, v)] k = none
    have h2 : ((k2, v).1 == k) = false := by simp [h]
    rw [dictGet, List.find?_cons, h2]
    rfl
  | cons p rest ih =>
    by_cases hk : (p.1 == k) = true
    · rw [List.cons_append, dictGet, List.find?_cons, hk, dictGet,
        List.find?_cons, hk]
    · have hk2 : (p.1 == k) = false := by simpa using hk
      rw [List.cons_append, dictGet, List.find?_cons, hk2,
        dictGet, List.find?_cons, hk2]
      exact ih

theorem dictHas_append_single_other {d : List (String × JVal)} {k k2 : String}
    {v : JVal} (h : k2 ≠ k) : dictHas (d ++ [(k2, v)]) k = dictHas d k := by
  induction d with
  | nil => simp [dictHas, h]
  | cons p rest ih =>
    show (p.1 == k || dictHas (rest ++ [(k2, v)]) k) = (p.1 == k || dictHas rest k)
    rw [ih]

theorem dictHas_remove_other {d : List (String × JVal)} {k k2 : String}
    (h : k2 ≠ k) : dictHas (dictRemove d k2) k = dictHas d k := by
  induction d with
  | nil => rfl
  | cons p rest ih =>
    have ih2 : dictHas (dictRemove rest k2) k = dictHas rest k := ih
    by_cases h2 : (p.1 == k2) = true
    · have hpk : (p.1 == k) = false := by simp [eq_of_beq h2, h]
      rw [dictRemove, List.filter_cons, if_neg (by simp [h2])]
      rw [dictRemove] at ih2
      rw [ih2]
      have hrhs : dictHas (p :: rest) k = (p.1 == k || dictHas rest k) := rfl
      rw [hrhs, hpk, Bool.false_or]
    · rw [dictRemove, List.filter_cons, if_pos (by simpa using h2)]
      show (p.1 == k || dictHas (List.filter (fun p => !(p.1 == k2)) rest) k) =
        (p.1 == k || dictHas rest k)
      rw [dictRemove] at ih2
      rw [ih2]

theorem dictHas_map_set {rest : List (String × JVal)} {k k2 : String} {v : JVal}
    (h : k2 ≠ k) :
    dictHas (rest.map (fun p => if p.1 == k2 then (k2, v) else p)) k =
      dictHas rest k := by
  induction rest with
  | nil => rfl
  | cons p rs ih =>
    have ih2 : dictHas (rs.map (fun p => if p.1 == k2 then (k2, v) else p)) k =
      dictHas rs k := ih
    by_cases h2 : (p.1 == k2) = true
    · have hpk : (p.1 == k) = false := by simp [eq_of_beq h2, h]
      have hk2k : (((k2, v)).1 == k) = false := by simp [h]
      rw [List.map_cons, if_pos h2]
      show (((k2, v)).1 == k || dictHas (rs.map fun p =>
        if p.1 == k2 then (k2, v) else p) k) = (p.1 == k || dictHas rs k)
      rw [hk2k, hpk, ih2]
    · rw [List.map_cons, if_neg h2]
      show (p.1 == k || dictHas (rs.map fun p =>
        if p.1 == k2 then (k2, v) else p) k) = (p.1 == k || dictHas rs k)
      rw [ih2]

theorem dictHas_set_preserved {d : List (String × JVal)} {k k2 : String} {v : JVal}
    (h : k2 ≠ k) : dictHas (dictSet d k2 v) k = dictHas d k := by
  unfold dictSet
  split
  · exact dictHas_map_set h
  · exact dictHas_append_single_other h

theorem dictGet_set_self {d : List (String × JVal)} {k : String} {v : JVal} :
    dictGet (dictSet d k v) k = some v := by
  unfold dictSet
  split
  · rename_i hhas
    induction d with
    | nil => simp [dictHas] at hhas
    | cons p rest ih =>
      by_cases h2 : (p.1 == k) = true
      · have hkk : (((k, v)).1 == k) = true := by simp
        rw [List.map_cons, if_pos h2, dictGet, List.find?_cons, hkk]
        rfl
      · have h3 : (p.1 == k) = false := by simpa using h2
        rw [List.map_cons, if_neg h2, dictGet, List.find?_cons, h3]
        rw [dictHas, List.any_cons, h3, Bool.false_or] at hhas
        exact ih hhas
  · rename_i hhas
    rw [dictGet_append_of_has_false (by simpa using hhas)]
    have hkk : (((k, v)).1 == k) = true := by simp
    rw [dictGet, List.find?_cons, hkk]
    rfl

theorem dictGet_setdefault_other {d : List (String × JVal)} {k k2 : String} {v : JVal}
    (h : k2 ≠ k) : dictGet (dictSetdefault d k2 v) k = dictGet d k := by
  unfold dictSetdefault
  split
  · rfl
  · exact dictGet_append_single_other h

theorem dictHas_setdefault_other {d : List (String × JVal)} {k k2 : String} {v : JVal}
    (h : k2 ≠ k) : dictHas (dictSetdefault d k2 v) k = dictHas d k := by
  unfold dictSetdefault
  split
  · rfl
  · exact dictHas_append_single_other h

theorem dictGet_setdefault_new {d : List (String × JVal)} {k : String} {v : JVal}
    (h : dictHas d k = false) : dictGet (dictSetdefault d k v) k = some v := by
  unfold dictSetdefault
  rw [if_neg (by simp [h])]
  rw [dictGet_append_of_has_false h]
  have hkk : (((k, v)).1 == k) = true := by simp
  rw [dictGet, List.find?_cons, hkk]
  rfl

/-! ### Claim theorems about the structured-output parser -/

/-- Claim C8: `parse_json_array` is total (never raises) and returns either
the array from the direct parse of the fence-stripped text, or the array
from the first-`[`-to-last-`]` substring parse, or the empty list on
irrecoverable failure. -/
theorem claim_C8_parse_robust : ∀ (J : String → Option JVal) (text : String),
    parse_json_array J text = [] ∨
    J (String.mk (fenceStripped (pstripS text).data)) =
      some (JVal.arr (parse_json_array J text)) ∨
    ∃ u, bracketSub (String.mk (fenceStripped (pstripS text).data)) = some u ∧
      J u = some (JVal.arr (parse_json_array J text)) := by
  intro J text
  cases hJ : J (String.mk (fenceStripped (pstripS text).data)) with
  | some v =>
    cases v with
    | arr l =>
      have hp : parse_json_array J text = l := by
        simp only [parse_json_array, hJ]
      right; left
      rw [hp]
    | null => exact Or.inl (by simp only [parse_json_array, hJ])
    | bool b => exact Or.inl (by simp only [parse_json_array, hJ])
    | num n => exact Or.inl (by simp only [parse_json_array, hJ])
    | str s2 => exact Or.inl (by simp only [parse_json_array, hJ])
    | obj f => exact Or.inl (by simp only [parse_json_array, hJ])
  | none =>
    cases hB : bracketSub (String.mk (fenceStripped (pstripS text).data)) with
    | none => exact Or.inl (by simp only [parse_json_array, hJ, hB])
    | some u =>
      cases hJ2 : J u with
      | none => exact Or.inl (by simp only [parse_json_array, hJ, hB, hJ2])
      | some v2 =>
        cases v2 with
        | arr l =>
          have hp : parse_json_array J text = l := by
            simp only [parse_json_array, hJ, hB, hJ2]
          right; right
          exact ⟨u, rfl, by rw [hp]; exact hJ2⟩
        | null => exact Or.inl (by simp only [parse_json_array, hJ, hB, hJ2])
        | bool b => exact Or.inl (by simp only [parse_json_array, hJ, hB, hJ2])
        | num n => exact Or.inl (by simp only [parse_json_array, hJ, hB, hJ2])
        | str s2 => exact Or.inl (by simp only [parse_json_array, hJ, hB, hJ2])
        | obj f => exact Or.inl (by simp only [parse_json_array, hJ, hB, hJ2])

/-- Claim C9: when the fence-stripped text parses as a non-array JSON
value, `parse_json_array` returns `[]` immediately and the bracket
substring is never attempted. -/
theorem claim_C9_nonarray : ∀ (J : String → Option JVal) (text : String) (v : JVal),
    J (String.mk (fenceStripped (pstripS text).data)) = some v →
    (∀ l, v ≠ JVal.arr l) → parse_json_array J text = [] := by
  intro J text v hJ hv
  cases v with
  | arr l => exact absurd rfl (hv l)
  | null => simp only [parse_json_array, hJ]
  | bool b => simp only [parse_json_array, hJ]
  | num n => simp only [parse_json_array, hJ]
  | str s2 => simp only [parse_json_array, hJ]
  | obj f => simp only [parse_json_array, hJ]

/-- Claim C9 witness: the object text parses whole, its bracket substring
`[1]` would parse as a nonempty array, yet the result is `[]`. -/
theorem claim_C9_nonarray_witness :
    jsonOracle "\x7b\"a\": [1]\x7d" = some (JVal.obj [("a", JVal.arr [JVal.num 1])]) ∧
    bracketSub (String.mk (fenceStripped (pstripS "\x7b\"a\": [1]\x7d").data)) = some "[1]" ∧
    jsonOracle "[1]" = some (JVal.arr [JVal.num 1]) ∧
    parse_json_array jsonOracle "\x7b\"a\": [1]\x7d" = [] :=
  ⟨rfl, rfl, rfl,
    claim_C9_nonarray jsonOracle "\x7b\"a\": [1]\x7d" (JVal.obj [("a", JVal.arr [JVal.num 1])])
      rfl (fun _ h => JVal.noConfusion h)⟩

/-! ### Claim theorems about quiz post-processing -/

/-- Claim C3 counterexample: the ai_service post-processing loop does NOT
clamp an unrecognized answer letter to "A" — the item keeps
`correct_answer = "Z"` (the clamp lives in the quiz route). -/
theorem claim_C3_counterexample :
    postprocessQuizItem (JVal.obj [("correctAnswer", JVal.str "Z")]) =
      some (JVal.obj [("correct_answer", JVal.str "Z"), ("options", JVal.arr []),
        ("explanation", JVal.str "")]) ∧
    ("Z" : String) ≠ "A" :=
  ⟨rfl, by decide⟩

/-- Claim C3 (amended): post-processing renames `correctAnswer` to
`correct_answer` with trim and upper-case, defaults missing
`options`/`explanation`, and filters nothing — a list that survives the
loop keeps all its items (a non-dict item instead makes the loop raise);
the clamp of unrecognized letters to "A" happens in the quiz route
validation, whose accepted items always carry a letter in
`valid_letters`. -/
theorem claim_C3_postprocess_and_route : ∀ (d : List (String × JVal)) (v : JVal),
    postprocessQuizItem (JVal.obj d) = some (JVal.obj (postprocessFields d)) ∧
    (dictGet d "correctAnswer" = some v →
      dictGet (postprocessFields d) "correct_answer" =
        some (JVal.str (upperS (pstripS (pyStr v))))) ∧
    (dictHas d "options" = false →
      dictGet (postprocessFields d) "options" = some (JVal.arr [])) ∧
    (dictHas d "explanation" = false →
      dictGet (postprocessFields d) "explanation" = some (JVal.str "")) ∧
    (∀ (items ws : List JVal), postprocessQuiz items = some ws →
      ws.length = items.length) ∧
    (∀ (w : JVal) (qi : QuizItem), routeQuizItem w = Except.ok (some qi) →
      qi.correct_answer ∈ valid_letters) := by
  intro d v
  refine ⟨rfl, ?_, ?_, ?_, ?_, ?_⟩
  · intro hget
    have hhas : dictHas d "correctAnswer" = true := by
      by_contra hc
      rw [dictGet_of_has_false (by simpa using hc)] at hget
      exact Option.noConfusion hget
    unfold postprocessFields
    rw [if_pos hhas, hget]
    rw [dictGet_setdefault_other (by decide), dictGet_setdefault_other (by decide)]
    exact dictGet_set_self
  · intro hopt
    unfold postprocessFields
    have h1 : dictHas (if dictHas d "correctAnswer" then
        dictSet (dictRemove d "correctAnswer") "correct_answer"
          (JVal.str (upperS (pstripS (pyStr ((dictGet d "correctAnswer").getD
            (JVal.str ""))))))
      else d) "options" = false := by
      split
      · rw [dictHas_set_preserved (by decide), dictHas_remove_other (by decide)]
        exact hopt
      · exact hopt
    rw [dictGet_setdefault_other (by decide)]
    exact dictGet_setdefault_new h1
  · intro hexp
    unfold postprocessFields
    have h1 : dictHas (if dictHas d "correctAnswer" then
        dictSet (dictRemove d "correctAnswer") "correct_answer"
          (JVal.str (upperS (pstripS (pyStr ((dictGet d "correctAnswer").getD
            (JVal.str ""))))))
      else d) "explanation" = false := by
      split
      · rw [dictHas_set_preserved (by decide), dictHas_remove_other (by decide)]
        exact hexp
      · exact hexp
    have h2 : dictHas (dictSetdefault (if dictHas d "correctAnswer" then
        dictSet (dictRemove d "correctAnswer") "correct_answer"
          (JVal.str (upperS (pstripS (pyStr ((dictGet d "correctAnswer").getD
            (JVal.str ""))))))
      else d) "options" (JVal.arr [])) "explanation" = false := by
      rw [dictHas_setdefault_other (by decide)]
      exact h1
    exact dictGet_setdefault_new h2
  · intro items
    induction items with
    | nil =>
      intro ws h
      simp only [postprocessQuiz, Option.some.injEq] at h
      subst h
      rfl
    | cons a rest ih =>
      intro ws h
      cases ha : postprocessQuizItem a with
      | none =>
        simp only [postprocessQuiz, ha] at h
        exact Option.noConfusion h
      | some w =>
        cases hr : postprocessQuiz rest with
        | none =>
          simp only [postprocessQuiz, ha, hr] at h
          exact Option.noConfusion h
        | some rs =>
          simp only [postprocessQuiz, ha, hr, Option.some.injEq] at h
          subst h
          simp only [List.length_cons]
          rw [ih rs hr]
  · intro w qi h
    cases w with
    | obj d2 =>
      simp only [routeQuizItem] at h
      split at h
      · split at h
        · rw [Except.ok.injEq] at h
          exact Option.noConfusion h
        · split at h
          · rw [Except.ok.injEq, Option.some.injEq] at h
            subst h
            show (if upperS (pstripS (pyStr (jvalOr (dictGet d2 "correct_answer")
                (JVal.str "A")))) ∈ valid_letters then
                upperS (pstripS (pyStr (jvalOr (dictGet d2 "correct_answer")
                  (JVal.str "A")))) else "A") ∈ valid_letters
            split
            · rename_i hmem
              exact hmem
            · decide
          · exact Except.noConfusion h
      · exact Except.noConfusion h
    | null => exact Except.noConfusion h
    | bool b => exact Except.noConfusion h
    | num n => exact Except.noConfusion h
    | str s2 => exact Except.noConfusion h
    | arr l => exact Except.noConfusion h

/-- Claim C3 witness: a lower-case provider letter is canonicalized but
"Z" is not clamped at the post-processing layer, while the route clamps. -/
theorem claim_C3_postprocess_and_route_witness :
    (dictGet (postprocessFields [("correctAnswer", JVal.str " b ")]) "correct_answer" =
      some (JVal.str "B")) ∧
    (routeQuizItem (JVal.obj [("question", JVal.str "q"),
        ("options", JVal.arr [JVal.str "o1", JVal.str "o2"]),
        ("correct_answer", JVal.str "Z")]) =
      Except.ok (some ⟨"q", ["o1", "o2"], "A", ""⟩)) :=
  ⟨by
    have h := (claim_C3_postprocess_and_route
      [("correctAnswer", JVal.str " b ")] (JVal.str " b ")).2.1 rfl
    exact h,
   rfl⟩

/-! ### Claim theorems about generation retries (C4) -/

/-- Claim C4 counterexample: with a transcript whose first response is
unparseable and whose second is a JSON array of one dict,
`_generate_flashcards_gemini` makes exactly one provider call and returns
the empty list — no retry — while `_generate_quiz_gemini` retries once and
returns the post-processed item. -/
theorem claim_C4_counterexample :
    generate_flashcards_gemini quizJsonOracle quizGenOracle = ([], 1) ∧
    generate_quiz_gemini quizJsonOracle quizGenOracle =
      (some [JVal.obj [("question", JVal.str "q"), ("options", JVal.arr []),
        ("explanation", JVal.str "")]], 2) :=
  ⟨rfl, rfl⟩

/-- Claim C4 (amended): only the Gemini quiz path retries — exactly once,
re-invoking the same Gemini call — when parsing plus post-processing yields
zero items; an exception raised inside the first call (e.g. by a non-dict
item in post-processing) propagates after that single call with no retry,
and flashcard generation (either provider) and the OpenAI quiz path make
exactly one provider call with no retry. -/
theorem claim_C4_single_retry : ∀ (J : String → Option JVal) (gen : Nat → String),
    (generate_flashcards_gemini J gen).2 = 1 ∧
    (generate_flashcards_openai J gen).2 = 1 ∧
    (generate_quiz_openai J gen).2 = 1 ∧
    (run_once_quiz J (gen 0) = some [] →
      generate_quiz_gemini J gen = (run_once_quiz J (gen 1), 2)) ∧
    (∀ items, run_once_quiz J (gen 0) = some items → items ≠ [] →
      generate_quiz_gemini J gen = (some items, 1)) ∧
    (run_once_quiz J (gen 0) = none →
      generate_quiz_gemini J gen = (none, 1)) := by
  intro J gen
  refine ⟨rfl, rfl, rfl, ?_, ?_, ?_⟩
  · intro h
    unfold generate_quiz_gemini
    rw [h]
  · intro items h hne
    unfold generate_quiz_gemini
    rw [h]
    cases items with
    | nil => exact absurd rfl hne
    | cons a r => rfl
  · intro h
    unfold generate_quiz_gemini
    rw [h]

/-- Claim C4 witness: the retry branch of the Gemini quiz path at the
concrete transcript. -/
theorem claim_C4_single_retry_witness :
    run_once_quiz quizJsonOracle (quizGenOracle 0) = some [] ∧
    generate_quiz_gemini quizJsonOracle quizGenOracle =
      (run_once_quiz quizJsonOracle (quizGenOracle 1), 2) :=
  ⟨rfl, (claim_C4_single_retry quizJsonOracle quizGenOracle).2.2.2.1 rfl⟩

/-! ### Claim theorems about the provider chains (C5) -/

/-- Claim C5 counterexample: with the provider preference explicitly set to
"openai" and both keys configured, an OpenAI failure is NOT surfaced — the
chain silently falls back to Gemini and returns its result. -/
theorem claim_C5_counterexample :
    providerOf ⟨"openai", true, true⟩ = "openai" ∧
    generate_flashcards ⟨"openai", true, true⟩
      (Except.error ⟨false⟩) (Except.error ⟨false⟩) (Except.ok (42 : Nat))
      (Except.error ⟨false⟩) = Except.ok 42 :=
  ⟨rfl, rfl⟩

/-- Claim C5 (amended): only the explicit free-provider choice ("gemini")
surfaces a primary failure without fallback (wrapped as a generation
error), for flashcards, quiz and chat alike; an explicit "openai" choice
falls back to Gemini whenever a Gemini key is configured, and surfaces the
(quota-classified) failure only when no Gemini key is set. -/
theorem claim_C5_explicit_choice : ∀ {α : Type} (s : GenSettings)
    (g1 o1 g2 g3 : Except PErr α) (c1 co1 c2 c3 : Except PErr (List String)) (e : PErr),
    (providerOf s = "gemini" → s.gemini_api_key = true → g1 = Except.error e →
      generate_flashcards s g1 o1 g2 g3 = Except.error (GenErr.gemini_failed e) ∧
      generate_quiz s g1 o1 g2 g3 = Except.error (GenErr.gemini_failed e)) ∧
    (providerOf s = "gemini" → s.gemini_api_key = true → c1 = Except.error e →
      chat_completion_stream s c1 co1 c2 c3 = Except.error (GenErr.chat_failed e)) ∧
    (providerOf s = "openai" → s.openai_api_key = true → s.gemini_api_key = true →
      o1 = Except.error e →
      generate_flashcards s g1 o1 g2 g3 = (match g2 with
        | Except.ok r => Except.ok r
        | Except.error e2 => Except.error (GenErr.raw e2)) ∧
      generate_quiz s g1 o1 g2 g3 = (match g2 with
        | Except.ok r => Except.ok r
        | Except.error e2 => Except.error (GenErr.raw e2))) ∧
    (providerOf s = "openai" → s.openai_api_key = true → s.gemini_api_key = false →
      o1 = Except.error e →
      generate_flashcards s g1 o1 g2 g3 =
        (if e.quota_like then Except.error GenErr.quota_exceeded
          else Except.error (GenErr.ai_generation_failed e))) := by
  intro α s g1 o1 g2 g3 c1 co1 c2 c3 e
  refine ⟨?_, ?_, ?_, ?_⟩
  · intro hpg hgk hg1
    have hu : useGeminiFirst s = true := by simp [useGeminiFirst, hpg]
    constructor
    · simp [generate_flashcards, hu, hgk, hg1, hpg]
    · simp [generate_quiz, hu, hgk, hg1, hpg]
  · intro hpg hgk hc1
    have hu : useGeminiFirst s = true := by simp [useGeminiFirst, hpg]
    simp [chat_completion_stream, hu, hgk, hc1, hpg]
  · intro hpo hok hgk ho1
    have hu : useGeminiFirst s = false := by simp [useGeminiFirst, hpo]
    constructor
    · simp [generate_flashcards, hu, genChainRest, hok, hgk, ho1]
    · simp [generate_quiz, hu, genChainRest, hok, hgk, ho1]
  · intro hpo hok hgk ho1
    have hu : useGeminiFirst s = false := by simp [useGeminiFirst, hpo]
    simp [generate_flashcards, hu, genChainRest, hok, hgk, ho1]

/-- Claim C5 witness: the explicit "gemini" choice surfaces the failure as
a wrapped generation error at a concrete configuration. -/
theorem claim_C5_explicit_choice_witness :
    providerOf ⟨"gemini", true, true⟩ = "gemini" ∧
    generate_flashcards ⟨"gemini", true, true⟩ (Except.error ⟨false⟩)
      (Except.ok (7 : Nat)) (Except.ok 8) (Except.ok 9) =
      Except.error (GenErr.gemini_failed ⟨false⟩) :=
  ⟨rfl, ((claim_C5_explicit_choice ⟨"gemini", true, true⟩ (Except.error ⟨false⟩)
    (Except.ok (7 : Nat)) (Except.ok 8) (Except.ok 9) (Except.ok []) (Except.ok [])
    (Except.ok []) (Except.ok []) ⟨false⟩).1 rfl rfl rfl).1⟩

/-! ### Claim theorems about embeddings (C1) -/

theorem length_padTrunc (arr : List ℝ) (d : Nat) : (padTrunc arr d).length = d := by
  unfold padTrunc
  split
  · rename_i h
    rw [List.length_append, List.length_replicate]
    omega
  · rename_i h
    rw [List.length_take]
    omega

theorem length_normalizeVec (arr : List ℝ) : (normalizeVec arr).length = arr.length := by
  unfold normalizeVec
  rw [List.length_map]

theorem sumSq_nonneg (l : List ℝ) : 0 ≤ sumSq l := by
  induction l with
  | nil => simp [sumSq]
  | cons a t ih =>
    have h1 : sumSq (a :: t) = a * a + sumSq t := rfl
    rw [h1]
    have := mul_self_nonneg a
    linarith

theorem sumSq_eq_zero_forall {l : List ℝ} (h : sumSq l = 0) : ∀ x ∈ l, x = 0 := by
  induction l with
  | nil => simp
  | cons a t ih =>
    have h2 : a * a + sumSq t = 0 := h
    have ht : 0 ≤ sumSq t := sumSq_nonneg t
    have ha : 0 ≤ a * a := mul_self_nonneg a
    have ha0 : a * a = 0 := by linarith
    have ht0 : sumSq t = 0 := by linarith
    intro x hx
    rcases List.mem_cons.mp hx with rfl | hx2
    · exact mul_self_eq_zero.mp ha0
    · exact ih ht0 x hx2

theorem sumSq_map_div (l : List ℝ) (n : ℝ) :
    sumSq (l.map (fun x => x / n)) = sumSq l / (n * n) := by
  induction l with
  | nil => simp [sumSq]
  | cons a t ih =>
    have h1 : sumSq ((a :: t).map (fun x => x / n)) =
      (a / n) * (a / n) + sumSq (t.map (fun x => x / n)) := rfl
    have h2 : sumSq (a :: t) = a * a + sumSq t := rfl
    rw [h1, h2, ih, add_div, div_mul_div_comm]

theorem normalizeVec_norm (arr : List ℝ) :
    sumSq (normalizeVec arr) = 1 ∨ ∀ x ∈ normalizeVec arr, x = 0 := by
  by_cases h0 : sumSq arr = 0
  · right
    intro x hx
    unfold normalizeVec at hx
    rw [List.mem_map] at hx
    obtain ⟨y, hy, rfl⟩ := hx
    rw [sumSq_eq_zero_forall h0 y hy]
    simp
  · left
    have hpos : 0 < sumSq arr := lt_of_le_of_ne (sumSq_nonneg arr) (Ne.symm h0)
    have hs : Real.sqrt (sumSq arr) ≠ 0 := ne_of_gt (Real.sqrt_pos.mpr hpos)
    unfold normalizeVec
    simp only [if_neg hs]
    rw [sumSq_map_div, Real.mul_self_sqrt (le_of_lt hpos)]
    exact div_self h0

theorem pad_and_normalize_spec (vectors : List (List ℝ)) (d : Nat) :
    ∀ w ∈ pad_and_normalize vectors d,
      w.length = d ∧ (sumSq w = 1 ∨ ∀ x ∈ w, x = 0) := by
  intro w hw
  unfold pad_and_normalize at hw
  rw [List.mem_map] at hw
  obtain ⟨arr, _, rfl⟩ := hw
  constructor
  · rw [length_normalizeVec, length_padTrunc]
  · exact normalizeVec_norm (padTrunc arr d)

theorem embRest_ok {s : EmbSettings} {gR lR : Except PErr (List (List ℝ))}
    {vs : List (List ℝ)} (h : embRest s gR lR = Except.ok vs) :
    ∃ raw, vs = pad_and_normalize raw s.embedding_dimensions := by
  unfold embRest at h
  split at h
  · split at h
    · exact ⟨_, ((Except.ok.injEq _ _).mp h).symm⟩
    · split at h
      · exact Except.noConfusion h
      · split at h
        · exact ⟨_, ((Except.ok.injEq _ _).mp h).symm⟩
        · exact Except.noConfusion h
  · split at h
    · exact Except.noConfusion h
    · split at h
      · exact ⟨_, ((Except.ok.injEq _ _).mp h).symm⟩
      · exact Except.noConfusion h

/-- Claim C1 counterexample: with an OpenAI key configured and target
dimension 2, an OpenAI response containing a single-entry vector is
returned exactly as received — `generate_embeddings` neither pads it to the
target dimension nor normalizes it, so the "regardless of which provider"
part of the claim fails on the OpenAI path. -/
theorem claim_C1_counterexample :
    generate_embeddings ⟨true, false, false, 2⟩
      (Except.ok [[(2 : ℝ)]]) (Except.error ⟨false⟩) (Except.error ⟨false⟩) ["t"] =
      Except.ok [[(2 : ℝ)]] ∧
    ([(2 : ℝ)] : List ℝ).length ≠ 2 :=
  ⟨rfl, by decide⟩

/-- Claim C1 (amended): every vector produced by the Gemini or local
fastembed stages — reached directly when no OpenAI key is configured, or by
fallback after an OpenAI-stage failure (e.g. a rate-limit-shaped error) —
has length exactly `embedding_dimensions`, and its sum of squared entries
is 1 (unit Euclidean norm) unless the padded/truncated vector is all-zero,
in which case the zero-norm guard divides by one and the vector stays zero.
The OpenAI path returns the provider vectors unmodified. -/
theorem claim_C1_embed_normalized : ∀ (s : EmbSettings)
    (oR gR lR : Except PErr (List (List ℝ))) (texts : List String)
    (vs : List (List ℝ)),
    (s.openai_api_key = false ∨ ∃ e, oR = Except.error e) →
    generate_embeddings s oR gR lR texts = Except.ok vs →
    ∀ w ∈ vs, w.length = s.embedding_dimensions ∧
      (sumSq w = 1 ∨ ∀ x ∈ w, x = 0) := by
  intro s oR gR lR texts vs hpath h
  cases texts with
  | nil =>
    unfold generate_embeddings at h
    rw [Except.ok.injEq] at h
    subst h
    intro w hw
    simp at hw
  | cons t ts =>
    unfold generate_embeddings at h
    have hrest : embRest s gR lR = Except.ok vs := by
      cases hko : s.openai_api_key with
      | false =>
        rw [hko] at h
        simp only [Bool.false_eq_true, if_false] at h
        exact h
      | true =>
        rcases hpath with hkey | ⟨e, he⟩
        · rw [hko] at hkey
          exact Bool.noConfusion hkey
        · rw [hko, he] at h
          simpa using h
    obtain ⟨raw, rfl⟩ := embRest_ok hrest
    exact pad_and_normalize_spec raw s.embedding_dimensions

/-- Claim C1 witness: with an OpenAI key configured, a rate-limit-shaped
OpenAI failure falls back to the Gemini stage, and the vector `[3, 4]` at
target dimension 2 comes back normalized with length 2. -/
theorem claim_C1_embed_normalized_witness :
    ((⟨true, true, false, 2⟩ : EmbSettings).openai_api_key = true) ∧
    generate_embeddings ⟨true, true, false, 2⟩ (Except.error ⟨true⟩)
      (Except.ok [[(3 : ℝ), 4]]) (Except.error ⟨false⟩) ["t"] =
      Except.ok (pad_and_normalize [[(3 : ℝ), 4]] 2) ∧
    ∀ w ∈ pad_and_normalize [[(3 : ℝ), 4]] 2,
      w.length = 2 ∧ (sumSq w = 1 ∨ ∀ x ∈ w, x = 0) :=
  ⟨rfl, rfl, claim_C1_embed_normalized ⟨true, true, false, 2⟩ (Except.error ⟨true⟩)
    (Except.ok [[(3 : ℝ), 4]]) (Except.error ⟨false⟩) ["t"]
    (pad_and_normalize [[(3 : ℝ), 4]] 2) (Or.inr ⟨⟨true⟩, rfl⟩) rfl⟩

end SaiV
